import Mathlib

set_option maxHeartbeats 1000000

deriving instance DecidableEq for Except

/-! Shallow embedding of the ssbfile extractor core: the table entry
resolver and relocation resolver of src/extract.rs together with the
version table of src/versions.rs.

Modelling conventions:
  * a byte buffer is a List Nat; every multi-byte read reduces each byte
    mod 256, so machine words stay below their width bound;
  * Rust panics (slice out of bounds, usize subtraction underflow) are
    surfaced as SSBError.bounds in an Except value;
  * the recursion of TableFile.get through get_next_entry_offset on
    id + 1 is driven by a fuel argument; TableFile.get supplies
    total_entries - id + 1 fuel, which is exactly enough because every
    recursive step moves from id to id + 1 below total_entries, so the
    SSBError.fuel marker is unreachable from TableFile.get;
  * the relocation chain walk (write_relocations) has no termination
    guarantee in the source (a cyclic chain loops forever), so it is
    embedded with explicit fuel returning WalkResult.fuelOut when the
    fuel runs out. -/

/-- Error outcomes of the extractor core: the two anyhow bail sites of
extract.rs (outOfRange from TableFile::get, malformedList from
parse_externs), the bounds constructor standing for every Rust panic
(slice indexing out of range, usize underflow), and the embedding-only
fuel marker. -/
inductive SSBError where
  | outOfRange (id entries maxId : Nat)
  | malformedList (len : Nat)
  | bounds
  | fuel
deriving DecidableEq

/-- The user-facing message of each error, mirroring the bail format
strings of extract.rs. -/
def SSBError.message : SSBError → String
  | .outOfRange id entries maxId =>
      "Requested file <" ++ toString id ++ "> but table only has " ++
        toString entries ++ " entries (file id 0 to " ++ toString maxId ++ ")"
  | .malformedList len =>
      "expected list of BE u16, got slice of size " ++ toString len
  | .bounds => "index out of bounds"
  | .fuel => "fuel exhausted"

/-- Big-endian 16-bit read of two bytes, as u16::from_be_bytes. -/
def be16 (b0 b1 : Nat) : Nat := b0 % 256 * 256 + b1 % 256

/-- Big-endian 32-bit read of four bytes, as u32::from_be_bytes. -/
def be32 (b0 b1 b2 b3 : Nat) : Nat := be16 b0 b1 * 65536 + be16 b2 b3

/-- Rust slice indexing buf[s..e]: defined exactly when s ≤ e ≤ buf.length,
otherwise the program panics (modelled as none). -/
def slice? (l : List Nat) (s e : Nat) : Option (List Nat) :=
  if s ≤ e ∧ e ≤ l.length then some ((l.drop s).take (e - s)) else none

/-- slice? lifted into the error monad: a failed slice is a Rust panic. -/
def sliceE (l : List Nat) (s e : Nat) : Except SSBError (List Nat) :=
  match slice? l s e with
  | some r => .ok r
  | none => .error .bounds

/-- Rust usize subtraction: underflow is a panic (debug) or produces an
out-of-range slice that panics (release); either way a bounds failure. -/
def subE (a b : Nat) : Except SSBError Nat :=
  if b ≤ a then .ok (a - b) else .error .bounds

/-- The big-endian 32-bit word of a buffer starting at byte s
(abbreviation used in theorem statements). -/
def entryWord (rom : List Nat) (s : Nat) : Nat :=
  be32 (rom.getD s 0) (rom.getD (s + 1) 0) (rom.getD (s + 2) 0) (rom.getD (s + 3) 0)

/-- The big-endian 16-bit halfword of a buffer starting at byte s
(abbreviation used in theorem statements). -/
def entryHalf (rom : List Nat) (s : Nat) : Nat :=
  be16 (rom.getD s 0) (rom.getD (s + 1) 0)

/-- versions.rs: SSBInfo, the version descriptor. -/
structure SSBInfo where
  version : String
  crc : Nat × Nat
  table_start : Nat
  table_end : Nat
deriving DecidableEq

/-- versions.rs: each entry is 12 (0xC) bytes long, and there is a dummy
entry at the end of the table. -/
def SSBInfo.total_entries (i : SSBInfo) : Nat :=
  (i.table_end - i.table_start) / 12 - 1

/-- versions.rs: the static table of known versions. -/
def SSB_ROMS_INFO : List SSBInfo :=
  [SSBInfo.mk "NALE" (0x916B8B5B, 0x780B85A4) 0x1AC870 0x1B2C6C]

/-- versions.rs find_version: reads the checksum pair at image offsets
0x10..0x18 (panicking, not failing gracefully, on a short image) and
scans the static table for a match. -/
def find_version (rom : List Nat) : Except SSBError (Option SSBInfo) := do
  let crc1 ← sliceE rom 0x10 0x14
  let crc2 ← sliceE rom 0x14 0x18
  let crc : Nat × Nat :=
    (be32 (crc1.getD 0 0) (crc1.getD 1 0) (crc1.getD 2 0) (crc1.getD 3 0),
     be32 (crc2.getD 0 0) (crc2.getD 1 0) (crc2.getD 2 0) (crc2.getD 3 0))
  pure (SSB_ROMS_INFO.find? (fun info => info.crc = crc))

/-- extract.rs RelocInfo: the start of the runtime relocation list in a
file, with the processed external file id list for external chains. -/
inductive RelocInfo where
  | internal (o : Nat)
  | external (o : Nat) (ex : List Nat)
deriving DecidableEq

def RelocInfo.get_starting_offset : RelocInfo → Nat
  | .internal o => o
  | .external o _ => o

def RelocInfo.get_external_files : RelocInfo → Option (List Nat)
  | .internal _ => none
  | .external _ ex => some ex

/-- extract.rs TableFile: a decoded table record. -/
structure TableFile where
  id : Nat
  offset : Nat
  compressed : Bool
  raw : List Nat
  inreloc : Option RelocInfo
  exreloc : Option RelocInfo
deriving DecidableEq

def TableFile.ENTRY_SIZE : Nat := 12
def TableFile.COMPRESS_BIT : Nat := 0x80000000

/-- extract.rs read_checked_u16 (inner helper of TableFile::get): decode
a 2-byte big-endian value, mapping the 0xFFFF sentinel to none; a slice
of the wrong length is a TryInto failure. -/
def read_checked_u16 (raw : List Nat) : Except SSBError (Option Nat) :=
  if raw.length = 2 then
    let val := be16 (raw.getD 0 0) (raw.getD 1 0)
    .ok (if val = 0xFFFF then none else some val)
  else .error .bounds

/-- extract.rs TableFile::parse_externs: the external file id list is a
sequence of big-endian u16 values; an odd byte count is a bail. -/
def chunksBE16 : List Nat → List Nat
  | b0 :: b1 :: rest => be16 b0 b1 :: chunksBE16 rest
  | _ => []

def parse_externs (raw : List Nat) : Except SSBError (List Nat) :=
  if raw.length % 2 ≠ 0 then .error (.malformedList raw.length)
  else .ok (chunksBE16 raw)

/-- extract.rs TableFile::get, fuel-indexed.  The body follows the source
line by line: range check, 12-byte entry slice, offset word (masked by
COMPRESS_BIT), payload size halfword scaled by 4, payload slice from
table_end + offset, then the two reloc head halfwords; a non-sentinel
external head triggers the next-entry-offset computation (terminator word
read for the last real id, recursion on id + 1 otherwise) and the extern
list parse.  Fuel only drives the id + 1 recursion. -/
def getF : Nat → Nat → List Nat → SSBInfo → Except SSBError TableFile
  | 0, _, _, _ => .error .fuel
  | fuel + 1, id, rom, info =>
    if info.total_entries ≤ id then
      .error (.outOfRange id info.total_entries (info.total_entries - 1))
    else do
      let start := info.table_start + id * TableFile.ENTRY_SIZE
      let entry ← sliceE rom start (start + TableFile.ENTRY_SIZE)
      let offsetWord := be32 (entry.getD 0 0) (entry.getD 1 0) (entry.getD 2 0) (entry.getD 3 0)
      let compressed := decide (TableFile.COMPRESS_BIT ≤ offsetWord)
      let offset := offsetWord % TableFile.COMPRESS_BIT
      let size := be16 (entry.getD 6 0) (entry.getD 7 0) * 4
      let raw ← sliceE rom (info.table_end + offset) (info.table_end + offset + size)
      let inW ← sliceE entry 4 6 >>= read_checked_u16
      let inreloc := inW.map (fun x => RelocInfo.internal (x * 4))
      let exW ← sliceE entry 8 10 >>= read_checked_u16
      let exreloc ← match exW with
        | none => pure none
        | some x => do
          let st := x * 4
          let nextStart ←
            if info.total_entries ≤ id + 1 then
              let tstart := info.table_start + (id + 1) * TableFile.ENTRY_SIZE
              (sliceE rom tstart (tstart + 4)).map
                (fun w => be32 (w.getD 0 0) (w.getD 1 0) (w.getD 2 0) (w.getD 3 0))
            else
              (getF fuel (id + 1) rom info).map (fun e => e.offset)
          let exoffstart := offset + size
          let exoffsize ← subE nextStart exoffstart
          let exstart := exoffstart + info.table_end
          let exend := exstart + exoffsize
          let exbytes ← sliceE rom exstart exend
          let externs ← parse_externs exbytes
          pure (some (RelocInfo.external st externs))
      pure (TableFile.mk id offset compressed raw inreloc exreloc)

/-- extract.rs TableFile::get, with fuel fixed so that the fuel marker is
unreachable (each recursive step increments id below total_entries). -/
def TableFile.get (id : Nat) (rom : List Nat) (info : SSBInfo) : Except SSBError TableFile :=
  getF (info.total_entries - id + 1) id rom info

/-- extract.rs TableFile::get_next_entry_offset: for the last real id read
the raw 32-bit word at the head of the trailing terminator record,
otherwise recursively resolve id + 1 and take its offset field. -/
def get_next_entry_offset (id : Nat) (rom : List Nat) (info : SSBInfo) : Except SSBError Nat :=
  if info.total_entries ≤ id + 1 then
    let start := info.table_start + (id + 1) * TableFile.ENTRY_SIZE
    (sliceE rom start (start + 4)).map
      (fun w => be32 (w.getD 0 0) (w.getD 1 0) (w.getD 2 0) (w.getD 3 0))
  else
    (TableFile.get (id + 1) rom info).map (fun e => e.offset)

/-! The relocation resolver (extract.rs write_relocations). -/

/-- The loop sentinel offset: 0xFFFF * 4. -/
def END : Nat := 0xFFFF * 4

/-- Outcome of the chain walk: success with the final buffer and the audit
log, an out-of-bounds node (Rust panic), or fuel exhaustion (the source
loops forever on a cyclic chain; the embedding runs out of fuel). -/
inductive WalkResult where
  | ok (file : List Nat) (relocs : List (Nat × Nat × Nat))
  | oob (offset : Nat)
  | fuelOut
deriving DecidableEq

/-- Store a list of byte values at consecutive positions starting at o
(copy_from_slice on buf[o..o + bs.length]). -/
def setBytes : List Nat → Nat → List Nat → List Nat
  | file, _, [] => file
  | file, o, b :: bs => setBytes (file.set o b) (o + 1) bs

/-- u32::to_be_bytes. -/
def toBE32 (v : Nat) : List Nat :=
  [v / 16777216 % 256, v / 65536 % 256, v / 256 % 256, v % 256]

/-- The associated file id of the current node: head of the external id
iterator (0 once exhausted), 0 for an internal chain. -/
def walkFid : Option (List Nat) → Nat
  | none => 0
  | some l => l.headD 0

/-- Prepend the audit entry of the current node to a successful walk
result, passing failures through. -/
def consReloc (fid next ptr : Nat) : WalkResult → WalkResult
  | .ok fo rl => .ok fo ((fid, next, ptr) :: rl)
  | r => r

/-- extract.rs write_relocations, fuel-indexed.  At each node below the
sentinel offset: read the big-endian pair (next, ptr) from the 4 bytes at
the node, overwrite those same 4 bytes with the big-endian encoding of
ptr * 4, log (fid, node offset, ptr * 4), and continue at next * 4. -/
def write_relocationsF : Nat → List Nat → Nat → Option (List Nat) → WalkResult
  | 0, file, next, _ =>
    if next = END then .ok file [] else .fuelOut
  | fuel + 1, file, next, ex =>
    if next = END then .ok file []
    else if next + 4 ≤ file.length then
      consReloc (walkFid ex) next (be16 (file.getD (next + 2) 0) (file.getD (next + 3) 0) * 4)
        (write_relocationsF fuel
          (setBytes file next (toBE32 (be16 (file.getD (next + 2) 0) (file.getD (next + 3) 0) * 4)))
          (be16 (file.getD next 0) (file.getD (next + 1) 0) * 4)
          (ex.map List.tail))
    else .oob next

/-- The sequence of node offsets actually visited by the walk, in
traversal order, following the same buffer mutation as the walk itself. -/
def walkTraceF : Nat → List Nat → Nat → List Nat
  | 0, _, _ => []
  | fuel + 1, file, next =>
    if next = END then []
    else if next + 4 ≤ file.length then
      next :: walkTraceF fuel
        (setBytes file next (toBE32 (be16 (file.getD (next + 2) 0) (file.getD (next + 3) 0) * 4)))
        (be16 (file.getD next 0) (file.getD (next + 1) 0) * 4)
    else []

/-- extract.rs write_relocations as invoked by relocate: walk from the
starting offset of the reloc descriptor with its external id list.  The
fuel file.length + 1 is enough for every acyclic chain. -/
def write_relocations (file : List Nat) (reloc : RelocInfo) : WalkResult :=
  write_relocationsF (file.length + 1) file reloc.get_starting_offset reloc.get_external_files

/-! Concrete fixture images.  All use a minimal version descriptor whose
table occupies bytes 0..24 of the image (one real entry plus the dummy
terminator, so total_entries = 1). -/

/-- A one-entry version descriptor: table at bytes 0..24. -/
def infoD : SSBInfo := SSBInfo.mk "TEST" (0, 0) 0 24

/-- Entry 0: offset 0, uncompressed, payload size 0, both reloc heads
sentinel; zeroed terminator. -/
def romD : List Nat :=
  [0, 0, 0, 0, 0xFF, 0xFF, 0, 0, 0xFF, 0xFF, 0, 0] ++
  [0, 0, 0, 0, 0, 0, 0, 0, 0, 0, 0, 0]

/-- Entry 0: offset word 0x80000004 (compressed, offset 4), payload size
word 1 (4 bytes), both reloc heads sentinel; terminator word 8; 4 bytes of
padding then the payload [1, 2, 3, 4] at image bytes 28..32. -/
def romT : List Nat :=
  [0x80, 0, 0, 0x04, 0xFF, 0xFF, 0, 1, 0xFF, 0xFF, 0, 0] ++
  [0, 0, 0, 8, 0, 0, 0, 0, 0, 0, 0, 0] ++
  [9, 9, 9, 9] ++ [1, 2, 3, 4]

/-- Entry 0: offset 0, payload size word 1 (payload 0xAA 0xBB 0xCC 0xDD at
bytes 24..28), internal head sentinel, external head word 0; terminator
word 8, so the external file list is bytes 28..32 = ids [5, 7]. -/
def romE : List Nat :=
  [0, 0, 0, 0, 0xFF, 0xFF, 0, 1, 0, 0, 0, 0] ++
  [0, 0, 0, 8, 0, 0, 0, 0, 0, 0, 0, 0] ++
  [0xAA, 0xBB, 0xCC, 0xDD] ++ [0, 5, 0, 7]

/-- Entry 0: offset 0, payload size 0, external head word 0 (non-sentinel);
the terminator first word is 0x80000000, i.e. its 31-bit offset field is 0
but its raw 32-bit word is 2^31. -/
def romC4 : List Nat :=
  [0, 0, 0, 0, 0xFF, 0xFF, 0, 0, 0, 0, 0, 0] ++
  [0x80, 0, 0, 0, 0, 0, 0, 0, 0, 0, 0, 0]

/-- A 2-node internal relocation chain: node 0 at offset 0 with raw pair
(next = 4, ptr = 0x10); node 1 at offset 16 with raw pair
(next = 0xFFFF, ptr = 0x20). -/
def fileB : List Nat :=
  [0, 4, 0, 0x10, 0, 0, 0, 0, 0, 0, 0, 0, 0, 0, 0, 0, 0xFF, 0xFF, 0, 0x20]

/-- A single terminal relocation node at offset 0 with raw pair
(next = 0xFFFF, ptr = 0x10). -/
def file1 : List Nat := [0xFF, 0xFF, 0, 0x10]

/-! General-purpose lemmas about the byte-buffer primitives. -/

theorem exceptBind_ok {α β : Type} (a : α) (f : α → Except SSBError β) :
    (Except.ok a >>= f) = f a := rfl

theorem exceptBind_error {α β : Type} (e : SSBError) (f : α → Except SSBError β) :
    (Except.error e >>= f : Except SSBError β) = .error e := rfl

theorem exceptMap_ok {α β : Type} (a : α) (f : α → β) :
    (Except.ok a : Except SSBError α).map f = .ok (f a) := rfl

theorem exceptMap_error {α β : Type} (e : SSBError) (f : α → β) :
    (Except.error e : Except SSBError α).map f = .error e := rfl

theorem getD_drop (l : List Nat) (s k : Nat) : (l.drop s).getD k 0 = l.getD (s + k) 0 := by
  induction s generalizing l with
  | zero => simp
  | succ s ih =>
    cases l with
    | nil => simp [List.getD]
    | cons a t =>
      show (t.drop s).getD k 0 = (a :: t).getD (s + 1 + k) 0
      rw [ih t]
      have : s + 1 + k = (s + k) + 1 := by omega
      rw [this]
      rfl

theorem getD_take (l : List Nat) (n k : Nat) (h : k < n) :
    (l.take n).getD k 0 = l.getD k 0 := by
  induction l generalizing n k with
  | nil => simp
  | cons a t ih =>
    cases n with
    | zero => omega
    | succ n =>
      cases k with
      | zero => rfl
      | succ k =>
        show (t.take n).getD k 0 = t.getD k 0
        exact ih n k (by omega)

theorem slice?_eq_some (rom : List Nat) (s e : Nat) (l : List Nat)
    (h : slice? rom s e = some l) :
    s ≤ e ∧ e ≤ rom.length ∧ l.length = e - s ∧
      ∀ k, k < e - s → l.getD k 0 = rom.getD (s + k) 0 := by
  unfold slice? at h
  split at h
  · rename_i hb
    cases h
    refine ⟨hb.1, hb.2, ?_, ?_⟩
    · simp
      omega
    · intro k hk
      rw [getD_take _ _ _ hk, getD_drop]
  · cases h

theorem slice?_of_le (rom : List Nat) (s e : Nat) (h1 : s ≤ e) (h2 : e ≤ rom.length) :
    slice? rom s e = some ((rom.drop s).take (e - s)) := by
  unfold slice?
  rw [if_pos ⟨h1, h2⟩]

theorem sliceE_eq_ok (rom : List Nat) (s e : Nat) (l : List Nat)
    (h : sliceE rom s e = .ok l) : slice? rom s e = some l := by
  unfold sliceE at h
  split at h
  · rename_i heq
    cases h
    exact heq
  · cases h

theorem subE_eq_ok (a b c : Nat) (h : subE a b = .ok c) : b ≤ a ∧ c = a - b := by
  unfold subE at h
  split at h
  · cases h
    simp_all
  · cases h

theorem sliceE_of_le (l : List Nat) (s e : Nat) (h1 : s ≤ e) (h2 : e ≤ l.length) :
    sliceE l s e = .ok ((l.drop s).take (e - s)) := by
  unfold sliceE
  rw [slice?_of_le l s e h1 h2]

theorem sliceE_err (l : List Nat) (s e : Nat) (h : ¬(s ≤ e ∧ e ≤ l.length)) :
    sliceE l s e = .error .bounds := by
  unfold sliceE slice?
  rw [if_neg h]

theorem chunksBE16_length (l : List Nat) :
    (chunksBE16 l).length * 2 + l.length % 2 = l.length := by
  match l with
  | [] => simp [chunksBE16]
  | [a] => simp [chunksBE16]
  | b0 :: b1 :: rest =>
    have ih := chunksBE16_length rest
    simp only [chunksBE16, List.length_cons]
    omega

theorem chunksBE16_getD (l : List Nat) (i : Nat) (h : 2 * i + 1 < l.length) :
    (chunksBE16 l).getD i 0 = be16 (l.getD (2 * i) 0) (l.getD (2 * i + 1) 0) := by
  match l, i with
  | [], i => simp at h
  | [a], i => simp at h
  | b0 :: b1 :: rest, 0 => rfl
  | b0 :: b1 :: rest, i + 1 =>
    have hrest : 2 * i + 1 < rest.length := by
      simp only [List.length_cons] at h
      omega
    have ih := chunksBE16_getD rest i hrest
    show (chunksBE16 rest).getD i 0 = _
    rw [ih]
    have e1 : 2 * (i + 1) = (2 * i + 1) + 1 := by omega
    rw [e1]
    rfl

/-- Claim C8: for every version descriptor, the derived entry count equals
(table_end - table_start) / 12 - 1, excluding the one dummy terminator
entry at the end of the table. -/
theorem c8_total_entries (info : SSBInfo) :
    info.total_entries = (info.table_end - info.table_start) / 12 - 1 := rfl

/-- Claim C2: for every id at or beyond total_entries, TableFile.get fails
with the OutOfRange error whose message reports the valid id range 0 to
total_entries - 1, and does so for every image buffer whatsoever (so the
image is never sliced); on the well-formed fixture image, the last real id
total_entries - 1 resolves successfully. -/
theorem c2_out_of_range (id : Nat) (rom : List Nat) (info : SSBInfo)
    (h : info.total_entries ≤ id) :
    TableFile.get id rom info =
      .error (.outOfRange id info.total_entries (info.total_entries - 1)) ∧
    (SSBError.outOfRange id info.total_entries (info.total_entries - 1)).message =
      "Requested file <" ++ toString id ++ "> but table only has " ++
        toString info.total_entries ++ " entries (file id 0 to " ++
        toString (info.total_entries - 1) ++ ")" ∧
    TableFile.get (infoD.total_entries - 1) romD infoD =
      .ok (TableFile.mk 0 0 false [] none none) := by
  refine ⟨?_, rfl, by decide⟩
  unfold TableFile.get
  simp only [getF]
  rw [if_pos h]

theorem c2_witness :
    infoD.total_entries ≤ 5 ∧
    (TableFile.get 5 [] infoD =
       .error (.outOfRange 5 infoD.total_entries (infoD.total_entries - 1)) ∧
     (SSBError.outOfRange 5 infoD.total_entries (infoD.total_entries - 1)).message =
       "Requested file <" ++ toString 5 ++ "> but table only has " ++
         toString infoD.total_entries ++ " entries (file id 0 to " ++
         toString (infoD.total_entries - 1) ++ ")" ∧
     TableFile.get (infoD.total_entries - 1) romD infoD =
       .ok (TableFile.mk 0 0 false [] none none)) :=
  ⟨by decide, c2_out_of_range 5 [] infoD (by decide)⟩

/-- Claim C5: parse_externs fails with MalformedList exactly on odd-length
input; on an even-length slice of 2n bytes it returns exactly n big-endian
16-bit values in input order. -/
theorem c5_parse_externs (raw : List Nat) :
    (raw.length % 2 ≠ 0 → parse_externs raw = .error (.malformedList raw.length)) ∧
    (∀ n, raw.length = 2 * n →
      ∃ l, parse_externs raw = .ok l ∧ l.length = n ∧
        ∀ i, i < n → l.getD i 0 = be16 (raw.getD (2 * i) 0) (raw.getD (2 * i + 1) 0)) := by
  constructor
  · intro h
    unfold parse_externs
    rw [if_pos h]
  · intro n hn
    refine ⟨chunksBE16 raw, ?_, ?_, ?_⟩
    · unfold parse_externs
      rw [if_neg (by omega)]
    · have := chunksBE16_length raw
      omega
    · intro i hi
      exact chunksBE16_getD raw i (by omega)

theorem c5_witness :
    (([9] : List Nat).length % 2 ≠ 0 ∧
      parse_externs [9] = .error (.malformedList 1)) ∧
    (([1, 2, 3, 4] : List Nat).length = 2 * 2 ∧
      ∃ l, parse_externs [1, 2, 3, 4] = .ok l ∧ l.length = 2 ∧
        ∀ i, i < 2 → l.getD i 0 =
          be16 (([1, 2, 3, 4] : List Nat).getD (2 * i) 0)
               (([1, 2, 3, 4] : List Nat).getD (2 * i + 1) 0)) :=
  ⟨⟨by decide, (c5_parse_externs [9]).1 (by decide)⟩,
   ⟨by decide, (c5_parse_externs [1, 2, 3, 4]).2 2 (by decide)⟩⟩

theorem find_version_short (rom : List Nat) (hlen : rom.length < 0x18) :
    find_version rom = .error .bounds := by
  unfold find_version
  by_cases h14 : rom.length < 0x14
  · rw [sliceE_err rom 0x10 0x14 (by omega)]
    rfl
  · rw [sliceE_of_le rom 0x10 0x14 (by omega) (by omega), exceptBind_ok,
      sliceE_err rom 0x14 0x18 (by omega)]
    rfl

/-- Claim C10: find_version is partial at the public interface: an image
shorter than 0x18 bytes makes the checksum slice panic (bounds) instead of
yielding none; a none result only arises for an image of at least 0x18
bytes whose checksum pair at 0x10..0x18 matches no entry of the static
version table. -/
theorem c10_find_version (rom : List Nat) :
    (rom.length < 0x18 → find_version rom = .error .bounds) ∧
    (find_version rom = .ok none →
      0x18 ≤ rom.length ∧
      ∀ info ∈ SSB_ROMS_INFO, info.crc ≠ (entryWord rom 0x10, entryWord rom 0x14)) := by
  refine ⟨find_version_short rom, ?_⟩
  intro h
  by_cases hlen : rom.length < 0x18
  · rw [find_version_short rom hlen] at h
    cases h
  · refine ⟨by omega, ?_⟩
    unfold find_version at h
    rw [sliceE_of_le rom 0x10 0x14 (by omega) (by omega), exceptBind_ok,
      sliceE_of_le rom 0x14 0x18 (by omega) (by omega), exceptBind_ok] at h
    have hfind := Except.ok.inj h
    have hget1 : ∀ k, k < 4 → ((rom.drop 0x10).take (0x14 - 0x10)).getD k 0 =
        rom.getD (0x10 + k) 0 := by
      intro k hk
      rw [getD_take _ _ _ (by omega), getD_drop]
    have hget2 : ∀ k, k < 4 → ((rom.drop 0x14).take (0x18 - 0x14)).getD k 0 =
        rom.getD (0x14 + k) 0 := by
      intro k hk
      rw [getD_take _ _ _ (by omega), getD_drop]
    intro info hmem heq
    have := List.find?_eq_none.mp hfind info hmem
    apply this
    simp only [decide_eq_true_eq]
    rw [hget1 0 (by omega), hget1 1 (by omega), hget1 2 (by omega), hget1 3 (by omega),
      hget2 0 (by omega), hget2 1 (by omega), hget2 2 (by omega), hget2 3 (by omega)]
    rw [heq]
    unfold entryWord
    norm_num

theorem c10_witness :
    (([] : List Nat).length < 0x18 ∧ find_version [] = .error .bounds) ∧
    (find_version (List.replicate 0x18 0) = .ok none ∧
      0x18 ≤ (List.replicate 0x18 0).length ∧
      ∀ info ∈ SSB_ROMS_INFO, info.crc ≠
        (entryWord (List.replicate 0x18 0) 0x10, entryWord (List.replicate 0x18 0) 0x14)) :=
  ⟨⟨by decide, (c10_find_version []).1 (by decide)⟩,
   ⟨by decide, (c10_find_version (List.replicate 0x18 0)).2 (by decide)⟩⟩

/-! Lemmas about the relocation chain walk. -/

theorem toBE32_length (v : Nat) : (toBE32 v).length = 4 := rfl

theorem setBytes_length (bs : List Nat) : ∀ (file : List Nat) (o : Nat),
    (setBytes file o bs).length = file.length := by
  induction bs with
  | nil => intro file o; rfl
  | cons b bs ih =>
    intro file o
    show (setBytes (file.set o b) (o + 1) bs).length = _
    rw [ih]
    simp

theorem getD_set_ne (l : List Nat) (i j a : Nat) (h : i ≠ j) :
    (l.set i a).getD j 0 = l.getD j 0 := by
  induction l generalizing i j with
  | nil => rfl
  | cons x t ih =>
    cases i with
    | zero =>
      cases j with
      | zero => omega
      | succ j => rfl
    | succ i =>
      cases j with
      | zero => rfl
      | succ j => exact ih i j (by omega)

theorem setBytes_getD (bs : List Nat) : ∀ (file : List Nat) (o j : Nat),
    (j < o ∨ o + bs.length ≤ j) → (setBytes file o bs).getD j 0 = file.getD j 0 := by
  induction bs with
  | nil => intro file o j _; rfl
  | cons b bs ih =>
    intro file o j hj
    simp only [List.length_cons] at hj
    have hj' : j < o + 1 ∨ (o + 1) + bs.length ≤ j := by omega
    show (setBytes (file.set o b) (o + 1) bs).getD j 0 = _
    rw [ih (file.set o b) (o + 1) j hj']
    exact getD_set_ne file o j b (by omega)

theorem headD_eq_getD (l : List Nat) : l.headD 0 = l.getD 0 0 := by
  cases l <;> rfl

theorem tail_getD (l : List Nat) (i : Nat) : l.tail.getD i 0 = l.getD (i + 1) 0 := by
  cases l <;> rfl

theorem write_relocationsF_end (fuel : Nat) (file : List Nat) (ex : Option (List Nat)) :
    write_relocationsF fuel file END ex = .ok file [] := by
  cases fuel <;> simp [write_relocationsF]

theorem write_relocationsF_step (fuel : Nat) (file : List Nat) (next : Nat)
    (ex : Option (List Nat)) (hne : next ≠ END) (hb : next + 4 ≤ file.length) :
    write_relocationsF (fuel + 1) file next ex =
      consReloc (walkFid ex) next (be16 (file.getD (next + 2) 0) (file.getD (next + 3) 0) * 4)
        (write_relocationsF fuel
          (setBytes file next (toBE32 (be16 (file.getD (next + 2) 0) (file.getD (next + 3) 0) * 4)))
          (be16 (file.getD next 0) (file.getD (next + 1) 0) * 4)
          (ex.map List.tail)) := by
  simp only [write_relocationsF]
  rw [if_neg hne, if_pos hb]

theorem write_relocationsF_oob (fuel : Nat) (file : List Nat) (next : Nat)
    (ex : Option (List Nat)) (hne : next ≠ END) (hb : ¬ next + 4 ≤ file.length) :
    write_relocationsF (fuel + 1) file next ex = .oob next := by
  simp only [write_relocationsF]
  rw [if_neg hne, if_neg hb]

theorem walkTraceF_end (fuel : Nat) (file : List Nat) :
    walkTraceF fuel file END = [] := by
  cases fuel <;> simp [walkTraceF]

theorem walkTraceF_step (fuel : Nat) (file : List Nat) (next : Nat)
    (hne : next ≠ END) (hb : next + 4 ≤ file.length) :
    walkTraceF (fuel + 1) file next =
      next :: walkTraceF fuel
        (setBytes file next (toBE32 (be16 (file.getD (next + 2) 0) (file.getD (next + 3) 0) * 4)))
        (be16 (file.getD next 0) (file.getD (next + 1) 0) * 4) := by
  simp only [walkTraceF]
  rw [if_neg hne, if_pos hb]

theorem consReloc_eq_fuelOut (a b c : Nat) (r : WalkResult) :
    consReloc a b c r = .fuelOut ↔ r = .fuelOut := by
  cases r <;> simp [consReloc]

theorem fuelOut_trace (fuel : Nat) : ∀ (file : List Nat) (next : Nat) (ex : Option (List Nat)),
    write_relocationsF fuel file next ex = .fuelOut →
    (walkTraceF fuel file next).length = fuel := by
  induction fuel with
  | zero =>
    intro file next ex h
    simp only [write_relocationsF] at h
    split at h
    · cases h
    · rfl
  | succ fuel ih =>
    intro file next ex h
    by_cases hne : next = END
    · rw [hne, write_relocationsF_end] at h
      cases h
    · by_cases hb : next + 4 ≤ file.length
      · rw [write_relocationsF_step fuel file next ex hne hb] at h
        have hr := (consReloc_eq_fuelOut _ _ _ _).mp h
        rw [walkTraceF_step fuel file next hne hb]
        simp only [List.length_cons]
        rw [ih _ _ _ hr]
      · rw [write_relocationsF_oob fuel file next ex hne hb] at h
        cases h

theorem trace_mem (fuel : Nat) : ∀ (file : List Nat) (next o : Nat),
    o ∈ walkTraceF fuel file next → o + 4 ≤ file.length := by
  induction fuel with
  | zero =>
    intro file next o h
    simp [walkTraceF] at h
  | succ fuel ih =>
    intro file next o h
    by_cases hne : next = END
    · rw [hne, walkTraceF_end] at h
      cases h
    · by_cases hb : next + 4 ≤ file.length
      · rw [walkTraceF_step fuel file next hne hb] at h
        rcases List.mem_cons.mp h with rfl | h'
        · exact hb
        · have := ih _ _ _ h'
          rw [setBytes_length] at this
          exact this
      · simp only [walkTraceF] at h
        rw [if_neg hne, if_neg hb] at h
        cases h

theorem nodup_lt_length (l : List Nat) (n : Nat) (hnd : l.Nodup)
    (hlt : ∀ o ∈ l, o < n) : l.length ≤ n := by
  classical
  have hsub : l.toFinset ⊆ Finset.range n := by
    intro o ho
    exact Finset.mem_range.mpr (hlt o (List.mem_toFinset.mp ho))
  have hcard := Finset.card_le_card hsub
  rw [List.toFinset_card_of_nodup hnd] at hcard
  simpa using hcard

theorem acyclic_terminates (file : List Nat) (next : Nat) (ex : Option (List Nat))
    (hnd : (walkTraceF (file.length + 1) file next).Nodup) :
    write_relocationsF (file.length + 1) file next ex ≠ .fuelOut := by
  intro h
  have hlen := fuelOut_trace (file.length + 1) file next ex h
  have hmem : ∀ o ∈ walkTraceF (file.length + 1) file next, o < file.length := by
    intro o ho
    have := trace_mem (file.length + 1) file next o ho
    omega
  have := nodup_lt_length _ _ hnd hmem
  omega

/-- Claim C7: the chain walk stops at the sentinel offset 0xFFFF * 4
without touching the buffer; at a non-sentinel in-bounds node it advances
to raw_next * 4 (raw_next read big-endian from the first two node bytes);
the advance target equals the terminal offset exactly when raw_next is the
sentinel 0xFFFF; and when the visit trace of the walk never repeats an
offset (an acyclic chain) the walk run with fuel file.length + 1 never
exhausts its fuel, i.e. it terminates. -/
theorem c7_walk_termination (fuel : Nat) (file : List Nat) (next : Nat)
    (ex : Option (List Nat)) (rawNext : Nat)
    (hn : rawNext = be16 (file.getD next 0) (file.getD (next + 1) 0))
    (hnd : (walkTraceF (file.length + 1) file next).Nodup) :
    (∀ g fl e2, write_relocationsF g fl END e2 = .ok fl []) ∧
    (next ≠ END → next + 4 ≤ file.length →
      write_relocationsF (fuel + 1) file next ex =
        consReloc (walkFid ex) next
          (be16 (file.getD (next + 2) 0) (file.getD (next + 3) 0) * 4)
          (write_relocationsF fuel
            (setBytes file next
              (toBE32 (be16 (file.getD (next + 2) 0) (file.getD (next + 3) 0) * 4)))
            (rawNext * 4) (ex.map List.tail))) ∧
    (rawNext * 4 = END ↔ rawNext = 0xFFFF) ∧
    write_relocationsF (file.length + 1) file next ex ≠ .fuelOut := by
  refine ⟨fun g fl e2 => write_relocationsF_end g fl e2, ?_, ?_,
    acyclic_terminates file next ex hnd⟩
  · intro hne hb
    rw [hn]
    exact write_relocationsF_step fuel file next ex hne hb
  · constructor
    · intro h
      unfold END at h
      omega
    · intro h
      rw [h]
      rfl

theorem c7_witness :
    ((0xFFFF : Nat) = be16 (file1.getD 0 0) (file1.getD (0 + 1) 0) ∧
      (walkTraceF (file1.length + 1) file1 0).Nodup) ∧
    ((∀ g fl e2, write_relocationsF g fl END e2 = .ok fl []) ∧
     (0 ≠ END → 0 + 4 ≤ file1.length →
       write_relocationsF (0 + 1) file1 0 none =
         consReloc (walkFid none) 0
           (be16 (file1.getD (0 + 2) 0) (file1.getD (0 + 3) 0) * 4)
           (write_relocationsF 0
             (setBytes file1 0
               (toBE32 (be16 (file1.getD (0 + 2) 0) (file1.getD (0 + 3) 0) * 4)))
             (0xFFFF * 4) (Option.map List.tail none))) ∧
     ((0xFFFF : Nat) * 4 = END ↔ (0xFFFF : Nat) = 0xFFFF) ∧
     write_relocationsF (file1.length + 1) file1 0 none ≠ .fuelOut) :=
  ⟨⟨by decide, by decide⟩,
    c7_walk_termination 0 file1 0 none 0xFFFF (by decide) (by decide)⟩

/-- Claim C9: a terminating (successful) chain walk changes only the
4-byte node regions it visited: the buffer keeps its length, and every
byte index outside all logged node footprints [o, o + 4) reads the same
value after the walk as before. -/
theorem c9_frame (fuel : Nat) (file : List Nat) (next : Nat) (ex : Option (List Nat))
    (file' : List Nat) (rl : List (Nat × Nat × Nat))
    (h : write_relocationsF fuel file next ex = .ok file' rl) :
    file'.length = file.length ∧
    ∀ j, (∀ e ∈ rl, j < e.2.1 ∨ e.2.1 + 4 ≤ j) → file'.getD j 0 = file.getD j 0 := by
  induction fuel generalizing file next ex file' rl with
  | zero =>
    simp only [write_relocationsF] at h
    split at h
    · obtain ⟨rfl, rfl⟩ := WalkResult.ok.inj h
      exact ⟨rfl, fun j _ => rfl⟩
    · cases h
  | succ fuel ih =>
    by_cases hne : next = END
    · rw [hne, write_relocationsF_end] at h
      obtain ⟨rfl, rfl⟩ := WalkResult.ok.inj h
      exact ⟨rfl, fun j _ => rfl⟩
    · by_cases hb : next + 4 ≤ file.length
      · rw [write_relocationsF_step fuel file next ex hne hb] at h
        cases hrec : write_relocationsF fuel
            (setBytes file next
              (toBE32 (be16 (file.getD (next + 2) 0) (file.getD (next + 3) 0) * 4)))
            (be16 (file.getD next 0) (file.getD (next + 1) 0) * 4)
            (ex.map List.tail) with
        | ok fo rl' =>
          rw [hrec] at h
          simp only [consReloc] at h
          obtain ⟨rfl, rfl⟩ := WalkResult.ok.inj h
          obtain ⟨ihlen, ihget⟩ := ih _ _ _ _ _ hrec
          constructor
          · rw [ihlen, setBytes_length]
          · intro j hj
            have hhead : j < next ∨ next + 4 ≤ j := hj _ (List.mem_cons_self _ _)
            rw [ihget j (fun e he => hj e (List.mem_cons_of_mem _ he))]
            exact setBytes_getD _ file next j (by simp only [toBE32_length]; omega)
        | oob o =>
          rw [hrec] at h
          simp [consReloc] at h
        | fuelOut =>
          rw [hrec] at h
          simp [consReloc] at h
      · rw [write_relocationsF_oob fuel file next ex hne hb] at h
        cases h

theorem c9_witness :
    write_relocationsF (fileB.length + 1) fileB 0 none =
      .ok [0, 0, 0, 0x40, 0, 0, 0, 0, 0, 0, 0, 0, 0, 0, 0, 0, 0, 0, 0, 0x80]
        [(0, 0, 0x40), (0, 16, 0x80)] ∧
    (([0, 0, 0, 0x40, 0, 0, 0, 0, 0, 0, 0, 0, 0, 0, 0, 0, 0, 0, 0, 0x80] : List Nat).length
        = fileB.length ∧
      ∀ j, (∀ e ∈ [((0 : Nat), (0 : Nat), (0x40 : Nat)), (0, 16, 0x80)],
              j < e.2.1 ∨ e.2.1 + 4 ≤ j) →
        ([0, 0, 0, 0x40, 0, 0, 0, 0, 0, 0, 0, 0, 0, 0, 0, 0, 0, 0, 0, 0x80] : List Nat).getD j 0
          = fileB.getD j 0) :=
  ⟨by decide, c9_frame (fileB.length + 1) fileB 0 none
    [0, 0, 0, 0x40, 0, 0, 0, 0, 0, 0, 0, 0, 0, 0, 0, 0, 0, 0, 0, 0x80]
    [(0, 0, 0x40), (0, 16, 0x80)] (by decide)⟩

/-- Claim C6: a successful chain walk logs exactly one triple per visited
node, in traversal order (the logged node offsets are exactly the visit
trace), and the file id of the i-th entry is the i-th external id when an
external id sequence is supplied (0 past its end) and 0 throughout for an
internal chain. -/
theorem c6_audit_log (fuel : Nat) (file : List Nat) (next : Nat) (ex : Option (List Nat))
    (file' : List Nat) (rl : List (Nat × Nat × Nat))
    (h : write_relocationsF fuel file next ex = .ok file' rl) :
    rl.map (fun e => e.2.1) = walkTraceF fuel file next ∧
    ∀ i, i < rl.length →
      (rl.getD i (0, 0, 0)).1 = (ex.map (fun l => l.getD i 0)).getD 0 := by
  induction fuel generalizing file next ex file' rl with
  | zero =>
    simp only [write_relocationsF] at h
    split at h
    · obtain ⟨rfl, rfl⟩ := WalkResult.ok.inj h
      rename_i hend
      refine ⟨?_, fun i hi => by simp at hi⟩
      rw [hend]
      simp [walkTraceF_end]
    · cases h
  | succ fuel ih =>
    by_cases hne : next = END
    · rw [hne, write_relocationsF_end] at h
      obtain ⟨rfl, rfl⟩ := WalkResult.ok.inj h
      refine ⟨?_, fun i hi => by simp at hi⟩
      rw [hne]
      simp [walkTraceF_end]
    · by_cases hb : next + 4 ≤ file.length
      · rw [write_relocationsF_step fuel file next ex hne hb] at h
        cases hrec : write_relocationsF fuel
            (setBytes file next
              (toBE32 (be16 (file.getD (next + 2) 0) (file.getD (next + 3) 0) * 4)))
            (be16 (file.getD next 0) (file.getD (next + 1) 0) * 4)
            (ex.map List.tail) with
        | ok fo rl' =>
          rw [hrec] at h
          simp only [consReloc] at h
          obtain ⟨rfl, rfl⟩ := WalkResult.ok.inj h
          obtain ⟨ihtr, ihfid⟩ := ih _ _ _ _ _ hrec
          constructor
          · rw [walkTraceF_step fuel file next hne hb]
            simp only [List.map_cons]
            rw [ihtr]
          · intro i hi
            cases i with
            | zero =>
              show walkFid ex = (ex.map (fun l => l.getD 0 0)).getD 0
              cases ex with
              | none => rfl
              | some l =>
                show l.headD 0 = l.getD 0 0
                exact headD_eq_getD l
            | succ i =>
              simp only [List.length_cons] at hi
              have := ihfid i (by omega)
              show (rl'.getD i (0, 0, 0)).1 = (ex.map (fun l => l.getD (i + 1) 0)).getD 0
              rw [this]
              cases ex with
              | none => rfl
              | some l =>
                show l.tail.getD i 0 = l.getD (i + 1) 0
                exact tail_getD l i
        | oob o =>
          rw [hrec] at h
          simp [consReloc] at h
        | fuelOut =>
          rw [hrec] at h
          simp [consReloc] at h
      · rw [write_relocationsF_oob fuel file next ex hne hb] at h
        cases h

theorem c6_witness :
    write_relocationsF 21 fileB 0 (some [5]) =
      .ok [0, 0, 0, 0x40, 0, 0, 0, 0, 0, 0, 0, 0, 0, 0, 0, 0, 0, 0, 0, 0x80]
        [(5, 0, 0x40), (0, 16, 0x80)] ∧
    (([(5, 0, 0x40), (0, 16, 0x80)] : List (Nat × Nat × Nat)).map (fun e => e.2.1)
        = walkTraceF 21 fileB 0 ∧
      ∀ i, i < ([(5, 0, 0x40), (0, 16, 0x80)] : List (Nat × Nat × Nat)).length →
        (([(5, 0, 0x40), (0, 16, 0x80)] : List (Nat × Nat × Nat)).getD i (0, 0, 0)).1
          = ((some [5]).map (fun l => l.getD i 0)).getD 0) :=
  ⟨by decide, c6_audit_log 21 fileB 0 (some [5])
    [0, 0, 0, 0x40, 0, 0, 0, 0, 0, 0, 0, 0, 0, 0, 0, 0, 0, 0, 0, 0x80]
    [(5, 0, 0x40), (0, 16, 0x80)] (by decide)⟩

/-- A single-node chain at offset 0 (raw next = 0xFFFF, raw ptr = 0x10)
followed by 4 bytes of unrelated data, used to separate the two candidate
write locations. -/
def fileC1 : List Nat := [0xFF, 0xFF, 0, 0x10, 0xAA, 0xBB, 0xCC, 0xDD]

/-- Modelled from the spec: the write location asserted by the claim for
one visited node, namely that the node's second 2-byte field and the two
bytes after the node, bytes [o + 2, o + 6), receive the 4-byte big-endian
resolved pointer.  Stated only for comparison against the source
behaviour; the source (extract.rs write_relocations) is embedded in
write_relocationsF. -/
def writeNodeClaimed (file : List Nat) (o ptr : Nat) : List Nat :=
  setBytes file (o + 2) (toBE32 ptr)

/-- Claim C1 as stated is false on the code: at the single node of fileC1
the walk writes the 4-byte big-endian resolved pointer 0x40 over the
node's own 4 bytes [0, 4), leaving bytes 4 and 5 untouched, whereas the
claimed write to bytes [2, 6) would leave byte 0 at 0xFF and change bytes
4 and 5.  The two resulting buffers differ at bytes 0, 3, 4 and 5. -/
theorem c1_counterexample :
    write_relocationsF 2 fileC1 0 none =
      .ok [0, 0, 0, 0x40, 0xAA, 0xBB, 0xCC, 0xDD] [(0, 0, 0x40)] ∧
    writeNodeClaimed fileC1 0 0x40 = [0xFF, 0xFF, 0, 0, 0, 0x40, 0xCC, 0xDD] ∧
    ([0, 0, 0, 0x40, 0xAA, 0xBB, 0xCC, 0xDD] : List Nat) ≠
      [0xFF, 0xFF, 0, 0, 0, 0x40, 0xCC, 0xDD] ∧
    ([0, 0, 0, 0x40, 0xAA, 0xBB, 0xCC, 0xDD] : List Nat).getD 4 0 = 0xAA ∧
    ([0xFF, 0xFF, 0, 0, 0, 0x40, 0xCC, 0xDD] : List Nat).getD 4 0 = 0 := by
  refine ⟨by decide, by decide, by decide, by decide, by decide⟩

/-- Claim C1 amended: at each visited node at byte offset o the resolver
reads the big-endian pair (next, ptr) from bytes [o, o + 4), computes
resolved_pointer = ptr * 4, and overwrites the node's own 4-byte footprint
[o, o + 4) with resolved_pointer as a 4-byte big-endian value (destroying
the already-read next field); the two bytes at [o + 4, o + 6) and every
other byte outside the footprint are not touched by this node's write. -/
theorem c1_write_footprint (fuel : Nat) (file : List Nat) (next : Nat)
    (ex : Option (List Nat)) (hne : next ≠ END) (hb : next + 4 ≤ file.length) :
    write_relocationsF (fuel + 1) file next ex =
      consReloc (walkFid ex) next
        (be16 (file.getD (next + 2) 0) (file.getD (next + 3) 0) * 4)
        (write_relocationsF fuel
          (setBytes file next
            (toBE32 (be16 (file.getD (next + 2) 0) (file.getD (next + 3) 0) * 4)))
          (be16 (file.getD next 0) (file.getD (next + 1) 0) * 4)
          (ex.map List.tail)) ∧
    (setBytes file next
        (toBE32 (be16 (file.getD (next + 2) 0) (file.getD (next + 3) 0) * 4))).length
      = file.length ∧
    ∀ j, j < next ∨ next + 4 ≤ j →
      (setBytes file next
          (toBE32 (be16 (file.getD (next + 2) 0) (file.getD (next + 3) 0) * 4))).getD j 0
        = file.getD j 0 := by
  refine ⟨write_relocationsF_step fuel file next ex hne hb, setBytes_length _ _ _, ?_⟩
  intro j hj
  exact setBytes_getD _ file next j (by simp only [toBE32_length]; omega)

theorem c1_witness :
    ((0 : Nat) ≠ END ∧ 0 + 4 ≤ fileC1.length) ∧
    (write_relocationsF (1 + 1) fileC1 0 none =
      consReloc (walkFid none) 0
        (be16 (fileC1.getD (0 + 2) 0) (fileC1.getD (0 + 3) 0) * 4)
        (write_relocationsF 1
          (setBytes fileC1 0
            (toBE32 (be16 (fileC1.getD (0 + 2) 0) (fileC1.getD (0 + 3) 0) * 4)))
          (be16 (fileC1.getD 0 0) (fileC1.getD (0 + 1) 0) * 4)
          (Option.map List.tail none)) ∧
    (setBytes fileC1 0
        (toBE32 (be16 (fileC1.getD (0 + 2) 0) (fileC1.getD (0 + 3) 0) * 4))).length
      = fileC1.length ∧
    ∀ j, j < 0 ∨ 0 + 4 ≤ j →
      (setBytes fileC1 0
          (toBE32 (be16 (fileC1.getD (0 + 2) 0) (fileC1.getD (0 + 3) 0) * 4))).getD j 0
        = fileC1.getD j 0) :=
  ⟨⟨by decide, by decide⟩, c1_write_footprint 1 fileC1 0 none (by decide) (by decide)⟩

/-! Inversion machinery for TableFile.get. -/

theorem bind_ok_elim {α β : Type} (x : Except SSBError α) (f : α → Except SSBError β) (b : β)
    (h : (x >>= f) = .ok b) : ∃ a, x = .ok a ∧ f a = .ok b := by
  cases x with
  | error e =>
    rw [exceptBind_error] at h
    exact Except.noConfusion h
  | ok a =>
    rw [exceptBind_ok] at h
    exact ⟨a, rfl, h⟩

theorem map_ok_elim {α β : Type} (x : Except SSBError α) (f : α → β) (b : β)
    (h : x.map f = .ok b) : ∃ a, x = .ok a ∧ f a = b := by
  cases x with
  | error e =>
    rw [exceptMap_error] at h
    exact Except.noConfusion h
  | ok a =>
    rw [exceptMap_ok] at h
    exact ⟨a, rfl, (Except.ok.inj h)⟩

theorem sliceE_read_checked (l : List Nat) (s e : Nat) (he : e = s + 2) (hs : e ≤ l.length) :
    (sliceE l s e >>= read_checked_u16) =
      .ok (if entryHalf l s = 0xFFFF then none else some (entryHalf l s)) := by
  subst he
  rw [sliceE_of_le l s (s + 2) (by omega) hs, exceptBind_ok]
  have hlen : ((l.drop s).take (s + 2 - s)).length = 2 := by
    simp
    omega
  have h0 : ((l.drop s).take (s + 2 - s)).getD 0 0 = l.getD s 0 := by
    rw [getD_take _ _ _ (by omega), getD_drop, Nat.add_zero]
  have h1 : ((l.drop s).take (s + 2 - s)).getD 1 0 = l.getD (s + 1) 0 := by
    rw [getD_take _ _ _ (by omega), getD_drop]
  unfold read_checked_u16
  rw [if_pos hlen]
  simp only [h0, h1, entryHalf]

theorem ite_bind {α β : Type} (c : Prop) [Decidable c] (x y : Except SSBError α)
    (f : α → Except SSBError β) :
    (if c then (x >>= f) else (y >>= f)) = ((if c then x else y) >>= f) := by
  split <;> rfl

theorem nextStart_bridge (id : Nat) (rom : List Nat) (info : SSBInfo) :
    (if info.total_entries ≤ id + 1 then
        (sliceE rom (info.table_start + (id + 1) * 12)
          (info.table_start + (id + 1) * 12 + 4)).map
          (fun w => be32 (w.getD 0 0) (w.getD 1 0) (w.getD 2 0) (w.getD 3 0))
      else
        (getF (info.total_entries - id) (id + 1) rom info).map (fun e => e.offset)) =
    get_next_entry_offset id rom info := by
  unfold get_next_entry_offset
  simp only [TableFile.ENTRY_SIZE]
  by_cases hid2 : info.total_entries ≤ id + 1
  · rw [if_pos hid2, if_pos hid2]
  · rw [if_neg hid2, if_neg hid2]
    unfold TableFile.get
    have hfuel : info.total_entries - id = info.total_entries - (id + 1) + 1 := by omega
    rw [hfuel]

theorem get_ok_elim (id : Nat) (rom : List Nat) (info : SSBInfo) (r : TableFile)
    (h : TableFile.get id rom info = .ok r) :
    id < info.total_entries ∧
    r.id = id ∧
    r.offset = entryWord rom (info.table_start + id * 12) % 0x80000000 ∧
    r.compressed = decide (0x80000000 ≤ entryWord rom (info.table_start + id * 12)) ∧
    slice? rom (info.table_end + r.offset)
      (info.table_end + r.offset + entryHalf rom (info.table_start + id * 12 + 6) * 4)
      = some r.raw ∧
    r.inreloc = (if entryHalf rom (info.table_start + id * 12 + 4) = 0xFFFF then none
                 else some (RelocInfo.internal
                   (entryHalf rom (info.table_start + id * 12 + 4) * 4))) ∧
    ((entryHalf rom (info.table_start + id * 12 + 8) = 0xFFFF ∧ r.exreloc = none) ∨
     (entryHalf rom (info.table_start + id * 12 + 8) ≠ 0xFFFF ∧
      ∃ nextStart exbytes externs,
        get_next_entry_offset id rom info = .ok nextStart ∧
        r.offset + entryHalf rom (info.table_start + id * 12 + 6) * 4 ≤ nextStart ∧
        slice? rom
          (r.offset + entryHalf rom (info.table_start + id * 12 + 6) * 4 + info.table_end)
          (r.offset + entryHalf rom (info.table_start + id * 12 + 6) * 4 + info.table_end +
            (nextStart - (r.offset + entryHalf rom (info.table_start + id * 12 + 6) * 4)))
          = some exbytes ∧
        parse_externs exbytes = .ok externs ∧
        r.exreloc = some (RelocInfo.external
          (entryHalf rom (info.table_start + id * 12 + 8) * 4) externs))) := by
  unfold TableFile.get at h
  simp only [getF] at h
  by_cases hid : info.total_entries ≤ id
  · rw [if_pos hid] at h
    exact Except.noConfusion h
  · rw [if_neg hid] at h
    obtain ⟨entry, hentry, h⟩ := bind_ok_elim _ _ _ h
    obtain ⟨raw, hraw, h⟩ := bind_ok_elim _ _ _ h
    obtain ⟨inW, hinW, h⟩ := bind_ok_elim _ _ _ h
    obtain ⟨exW, hexW, h⟩ := bind_ok_elim _ _ _ h
    -- characterize the entry slice
    have hslice := sliceE_eq_ok _ _ _ _ hentry
    obtain ⟨hse, hle, hlen0, hget0⟩ := slice?_eq_some _ _ _ _ hslice
    have hlen : entry.length = 12 := by
      simp only [TableFile.ENTRY_SIZE] at hlen0
      omega
    have hget : ∀ k, k < 12 → entry.getD k 0 =
        rom.getD (info.table_start + id * 12 + k) 0 := by
      intro k hk
      have := hget0 k (by simp only [TableFile.ENTRY_SIZE]; omega)
      simpa only [TableFile.ENTRY_SIZE] using this
    -- decode the two reloc head halfwords
    rw [sliceE_read_checked entry 4 6 (by norm_num) (by omega)] at hinW
    replace hinW := Except.ok.inj hinW
    rw [sliceE_read_checked entry 8 10 (by norm_num) (by omega)] at hexW
    replace hexW := Except.ok.inj hexW
    -- bridge the entry bytes to rom bytes
    have hw : be32 (entry.getD 0 0) (entry.getD 1 0) (entry.getD 2 0) (entry.getD 3 0)
        = entryWord rom (info.table_start + id * 12) := by
      unfold entryWord
      rw [hget 0 (by omega), hget 1 (by omega), hget 2 (by omega), hget 3 (by omega)]
      norm_num
    have hh4 : entryHalf entry 4 = entryHalf rom (info.table_start + id * 12 + 4) := by
      unfold entryHalf
      rw [hget 4 (by omega), hget 5 (by omega)]
    have hh6 : be16 (entry.getD 6 0) (entry.getD 7 0)
        = entryHalf rom (info.table_start + id * 12 + 6) := by
      unfold entryHalf
      rw [hget 6 (by omega), hget 7 (by omega)]
    have hh8 : entryHalf entry 8 = entryHalf rom (info.table_start + id * 12 + 8) := by
      unfold entryHalf
      rw [hget 8 (by omega), hget 9 (by omega)]
    by_cases hsent8 : entryHalf entry 8 = 0xFFFF
    · -- external head is the sentinel: no external reloc info
      rw [if_pos hsent8] at hexW
      subst hexW
      replace h := Except.ok.inj h
      subst h
      refine ⟨by omega, rfl, ?_, ?_, ?_, ?_, ?_⟩
      · show be32 (entry.getD 0 0) (entry.getD 1 0) (entry.getD 2 0) (entry.getD 3 0)
            % TableFile.COMPRESS_BIT = _
        rw [hw]
        rfl
      · show decide (TableFile.COMPRESS_BIT ≤ be32 (entry.getD 0 0) (entry.getD 1 0)
            (entry.getD 2 0) (entry.getD 3 0)) = _
        rw [hw]
        rfl
      · show slice? rom _ _ = some raw
        rw [← hh6]
        exact sliceE_eq_ok _ _ _ _ hraw
      · show Option.map (fun x => RelocInfo.internal (x * 4)) inW = _
        rw [← hinW, ← hh4]
        by_cases hsent4 : entryHalf entry 4 = 0xFFFF
        · rw [if_pos hsent4, if_pos hsent4]
          rfl
        · rw [if_neg hsent4, if_neg hsent4]
          rfl
      · left
        exact ⟨by rw [← hh8]; exact hsent8, rfl⟩
    · -- external head present
      rw [if_neg hsent8] at hexW
      subst hexW
      split at h
      next x heq =>
        exact Option.noConfusion heq
      next x heq =>
        replace heq := Option.some.inj heq
        subst heq
        simp only [TableFile.ENTRY_SIZE] at h
        rw [ite_bind, nextStart_bridge] at h
        obtain ⟨nextStart, hns, h⟩ := bind_ok_elim _ _ _ h
        obtain ⟨exoffsize, hsub, h⟩ := bind_ok_elim _ _ _ h
        obtain ⟨exbytes, hbytes, h⟩ := bind_ok_elim _ _ _ h
        obtain ⟨externs, hpe, h⟩ := bind_ok_elim _ _ _ h
        obtain ⟨y, hy, h⟩ := bind_ok_elim _ _ _ h
        replace hy := Except.ok.inj hy
        subst hy
        replace h := Except.ok.inj h
        subst h
        obtain ⟨hle2, hsz2⟩ := subE_eq_ok _ _ _ hsub
        rw [hsz2] at hbytes
        refine ⟨by omega, rfl, ?_, ?_, ?_, ?_, ?_⟩
        · show be32 (entry.getD 0 0) (entry.getD 1 0) (entry.getD 2 0) (entry.getD 3 0)
              % TableFile.COMPRESS_BIT = _
          rw [hw]
          rfl
        · show decide (TableFile.COMPRESS_BIT ≤ be32 (entry.getD 0 0) (entry.getD 1 0)
              (entry.getD 2 0) (entry.getD 3 0)) = _
          rw [hw]
          rfl
        · show slice? rom _ _ = some raw
          rw [← hh6]
          exact sliceE_eq_ok _ _ _ _ hraw
        · show Option.map (fun x => RelocInfo.internal (x * 4)) inW = _
          rw [← hinW, ← hh4]
          by_cases hsent4 : entryHalf entry 4 = 0xFFFF
          · rw [if_pos hsent4, if_pos hsent4]
            rfl
          · rw [if_neg hsent4, if_neg hsent4]
            rfl
        · refine Or.inr ⟨by rw [← hh8]; exact hsent8, nextStart, exbytes, externs,
            hns, ?_, ?_, hpe, ?_⟩
          · show be32 (entry.getD 0 0) (entry.getD 1 0) (entry.getD 2 0) (entry.getD 3 0)
                % TableFile.COMPRESS_BIT + _ * 4 ≤ nextStart
            rw [← hh6]
            exact hle2
          · show slice? rom _ _ = some exbytes
            rw [← hh6]
            exact sliceE_eq_ok _ _ _ _ hbytes
          · show some (RelocInfo.external (entryHalf entry 8 * 4) externs) = _
            rw [hh8]

/-- Claim C3: for every id that resolves successfully, the decoded record
satisfies the section-3 bit layout read from the 12-byte record at
table_start + id * 12: offset is the low 31 bits of the first big-endian
32-bit word, compressed is that word's most significant bit, payload size
is the big-endian halfword at record bytes 6..8 scaled by 4, and the
payload is exactly the image slice
[table_end + offset, table_end + offset + payload_size), which lies within
the image. -/
theorem c3_record_decode (id : Nat) (rom : List Nat) (info : SSBInfo) (r : TableFile)
    (h : TableFile.get id rom info = .ok r) :
    r.offset = entryWord rom (info.table_start + id * 12) % 2 ^ 31 ∧
    (r.compressed = true ↔ 2 ^ 31 ≤ entryWord rom (info.table_start + id * 12)) ∧
    slice? rom (info.table_end + r.offset)
      (info.table_end + r.offset + entryHalf rom (info.table_start + id * 12 + 6) * 4)
      = some r.raw ∧
    r.raw.length = entryHalf rom (info.table_start + id * 12 + 6) * 4 ∧
    info.table_end + r.offset + entryHalf rom (info.table_start + id * 12 + 6) * 4
      ≤ rom.length := by
  obtain ⟨hid, hrid, hoff, hcmp, hsl, hinr, hdisj⟩ := get_ok_elim id rom info r h
  obtain ⟨hs1, hs2, hs3, hs4⟩ := slice?_eq_some _ _ _ _ hsl
  refine ⟨?_, ?_, hsl, by omega, hs2⟩
  · rw [hoff]
    norm_num
  · rw [hcmp]
    rw [show (2 : Nat) ^ 31 = 2147483648 by norm_num]
    simp only [decide_eq_true_eq]

theorem c3_witness :
    TableFile.get 0 romT infoD = .ok (TableFile.mk 0 4 true [1, 2, 3, 4] none none) ∧
    ((TableFile.mk 0 4 true [1, 2, 3, 4] none none).offset =
        entryWord romT (infoD.table_start + 0 * 12) % 2 ^ 31 ∧
      ((TableFile.mk 0 4 true [1, 2, 3, 4] none none).compressed = true ↔
        2 ^ 31 ≤ entryWord romT (infoD.table_start + 0 * 12)) ∧
      slice? romT (infoD.table_end + (TableFile.mk 0 4 true [1, 2, 3, 4] none none).offset)
        (infoD.table_end + (TableFile.mk 0 4 true [1, 2, 3, 4] none none).offset +
          entryHalf romT (infoD.table_start + 0 * 12 + 6) * 4)
        = some (TableFile.mk 0 4 true [1, 2, 3, 4] none none).raw ∧
      (TableFile.mk 0 4 true [1, 2, 3, 4] none none).raw.length =
        entryHalf romT (infoD.table_start + 0 * 12 + 6) * 4 ∧
      infoD.table_end + (TableFile.mk 0 4 true [1, 2, 3, 4] none none).offset +
        entryHalf romT (infoD.table_start + 0 * 12 + 6) * 4 ≤ romT.length) :=
  ⟨by decide, c3_record_decode 0 romT infoD
    (TableFile.mk 0 4 true [1, 2, 3, 4] none none) (by decide)⟩

/-- Modelled from the spec: the next-entry boundary as claim C4 states it.
For the last real id the claim says the boundary is read from the trailing
terminator record offset field, which by the section-3 bit layout is the
low 31 bits of its first big-endian 32-bit word; the source
(get_next_entry_offset in extract.rs) instead uses the raw unmasked word.
This definition exists only for that comparison. -/
def get_next_entry_offset_claimed (id : Nat) (rom : List Nat) (info : SSBInfo) :
    Except SSBError Nat :=
  if info.total_entries ≤ id + 1 then
    let start := info.table_start + (id + 1) * TableFile.ENTRY_SIZE
    (sliceE rom start (start + 4)).map
      (fun w => be32 (w.getD 0 0) (w.getD 1 0) (w.getD 2 0) (w.getD 3 0) % 0x80000000)
  else
    (TableFile.get (id + 1) rom info).map (fun e => e.offset)

/-- Claim C4 as stated is false on the code: in romC4 record 0 has a
non-sentinel external head and is the last real id, and the terminator
record first word is 0x80000000, whose offset field (low 31 bits) is 0.
The claim therefore predicts an external list span of 0 - (0 + 0) = 0
bytes, which parses successfully as the empty id list; but the code reads
the raw unmasked terminator word 0x80000000 as the boundary, and resolving
the record fails with a bounds panic while slicing that huge span. -/
theorem c4_counterexample :
    entryHalf romC4 8 ≠ 0xFFFF ∧
    get_next_entry_offset 0 romC4 infoD = .ok 0x80000000 ∧
    get_next_entry_offset_claimed 0 romC4 infoD = .ok 0 ∧
    TableFile.get 0 romC4 infoD = .error .bounds ∧
    parse_externs [] = .ok [] := by
  refine ⟨by decide, by decide, by decide, by decide, by decide⟩

/-- Claim C4 amended: for every record whose external relocation head is
not the sentinel, the external file list bytes start at
table_end + this record offset + payload_size, their span is
nextStart - (offset + payload_size), and they parse to the stored external
id list, where nextStart is obtained by recursively resolving the record
at id + 1, except that for the last real id it is the raw unmasked 32-bit
big-endian word at the head of the trailing terminator record (which
coincides with the terminator offset field only when that word's
most significant bit is clear). -/
theorem c4_extern_span (id : Nat) (rom : List Nat) (info : SSBInfo) (r : TableFile)
    (st : Nat) (exts : List Nat)
    (h : TableFile.get id rom info = .ok r)
    (hex : r.exreloc = some (.external st exts)) :
    ∃ nextStart exbytes,
      get_next_entry_offset id rom info = .ok nextStart ∧
      r.offset + r.raw.length ≤ nextStart ∧
      slice? rom (r.offset + r.raw.length + info.table_end)
        (r.offset + r.raw.length + info.table_end + (nextStart - (r.offset + r.raw.length)))
        = some exbytes ∧
      exbytes.length = nextStart - (r.offset + r.raw.length) ∧
      parse_externs exbytes = .ok exts ∧
      (info.total_entries ≤ id + 1 →
        nextStart = entryWord rom (info.table_start + (id + 1) * 12)) ∧
      (id + 1 < info.total_entries →
        ∃ rn, TableFile.get (id + 1) rom info = .ok rn ∧ nextStart = rn.offset) := by
  obtain ⟨hid, hrid, hoff, hcmp, hsl, hinr, hdisj⟩ := get_ok_elim id rom info r h
  obtain ⟨hp1, hp2, hp3, hp4⟩ := slice?_eq_some _ _ _ _ hsl
  have hlenr : r.raw.length = entryHalf rom (info.table_start + id * 12 + 6) * 4 := by omega
  cases hdisj with
  | inl hnone =>
    rw [hex] at hnone
    exact Option.noConfusion hnone.2
  | inr hsome =>
    obtain ⟨hne8, nextStart, exbytes, externs, hns, hle, hslx, hpe, hexr⟩ := hsome
    rw [hex] at hexr
    obtain ⟨hst, hexts⟩ := RelocInfo.external.inj (Option.some.inj hexr)
    subst hexts
    obtain ⟨hx1, hx2, hx3, hx4⟩ := slice?_eq_some _ _ _ _ hslx
    refine ⟨nextStart, exbytes, hns, by omega, ?_, by omega, hpe, ?_, ?_⟩
    · rw [hlenr]
      exact hslx
    · intro hlast
      unfold get_next_entry_offset at hns
      rw [if_pos hlast] at hns
      obtain ⟨w, hwsl, hwv⟩ := map_ok_elim _ _ _ hns
      obtain ⟨hw1, hw2, hw3, hw4⟩ := slice?_eq_some _ _ _ _ (sliceE_eq_ok _ _ _ _ hwsl)
      subst hwv
      unfold entryWord
      simp only [TableFile.ENTRY_SIZE] at hw4 ⊢
      rw [hw4 0 (by omega), hw4 1 (by omega), hw4 2 (by omega), hw4 3 (by omega)]
      norm_num
    · intro hmore
      unfold get_next_entry_offset at hns
      rw [if_neg (by omega)] at hns
      obtain ⟨rn, hrn, hrnv⟩ := map_ok_elim _ _ _ hns
      exact ⟨rn, hrn, hrnv.symm⟩

theorem c4_witness :
    (TableFile.get 0 romE infoD =
        .ok (TableFile.mk 0 0 false [0xAA, 0xBB, 0xCC, 0xDD] none
          (some (RelocInfo.external 0 [5, 7]))) ∧
      (TableFile.mk 0 0 false [0xAA, 0xBB, 0xCC, 0xDD] none
          (some (RelocInfo.external 0 [5, 7]))).exreloc
        = some (RelocInfo.external 0 [5, 7])) ∧
    (∃ nextStart exbytes,
      get_next_entry_offset 0 romE infoD = .ok nextStart ∧
      (TableFile.mk 0 0 false [0xAA, 0xBB, 0xCC, 0xDD] none
          (some (RelocInfo.external 0 [5, 7]))).offset +
        (TableFile.mk 0 0 false [0xAA, 0xBB, 0xCC, 0xDD] none
          (some (RelocInfo.external 0 [5, 7]))).raw.length ≤ nextStart ∧
      slice? romE
        ((TableFile.mk 0 0 false [0xAA, 0xBB, 0xCC, 0xDD] none
            (some (RelocInfo.external 0 [5, 7]))).offset +
          (TableFile.mk 0 0 false [0xAA, 0xBB, 0xCC, 0xDD] none
            (some (RelocInfo.external 0 [5, 7]))).raw.length + infoD.table_end)
        ((TableFile.mk 0 0 false [0xAA, 0xBB, 0xCC, 0xDD] none
            (some (RelocInfo.external 0 [5, 7]))).offset +
          (TableFile.mk 0 0 false [0xAA, 0xBB, 0xCC, 0xDD] none
            (some (RelocInfo.external 0 [5, 7]))).raw.length + infoD.table_end +
          (nextStart -
            ((TableFile.mk 0 0 false [0xAA, 0xBB, 0xCC, 0xDD] none
                (some (RelocInfo.external 0 [5, 7]))).offset +
              (TableFile.mk 0 0 false [0xAA, 0xBB, 0xCC, 0xDD] none
                (some (RelocInfo.external 0 [5, 7]))).raw.length)))
        = some exbytes ∧
      exbytes.length = nextStart -
        ((TableFile.mk 0 0 false [0xAA, 0xBB, 0xCC, 0xDD] none
            (some (RelocInfo.external 0 [5, 7]))).offset +
          (TableFile.mk 0 0 false [0xAA, 0xBB, 0xCC, 0xDD] none
            (some (RelocInfo.external 0 [5, 7]))).raw.length) ∧
      parse_externs exbytes = .ok [5, 7] ∧
      (infoD.total_entries ≤ 0 + 1 →
        nextStart = entryWord romE (infoD.table_start + (0 + 1) * 12)) ∧
      (0 + 1 < infoD.total_entries →
        ∃ rn, TableFile.get (0 + 1) romE infoD = .ok rn ∧ nextStart = rn.offset)) :=
  ⟨⟨by decide, by decide⟩,
    c4_extern_span 0 romE infoD
      (TableFile.mk 0 0 false [0xAA, 0xBB, 0xCC, 0xDD] none
        (some (RelocInfo.external 0 [5, 7]))) 0 [5, 7] (by decide) (by decide)⟩
